import Mathlib

/-!
Verification development for the chessV3 search-and-evaluation core
(sources: src/chessEngine_uci.py and src/chess_engine_v3.py; the search and
evaluation functions are token-identical in the two files, so one embedding
covers both; the two root move selectors differ and are embedded separately).

Modelling conventions.  The chess rules library (python-chess) is an external
collaborator: it is modelled by the `Rules` structure, which records exactly
the board operations the engine calls, together with the restoration
invariant the spec states for apply/undo ("the board after the matching undo
is bit-for-bit identical to the board before the apply") and the fact that
`copy` yields an identical board.  Python integers are unbounded, so scores
are `Int`.  The float infinities used as search sentinels become the type
`XInt` of integers extended with a bottom and a top element.  Wall-clock time
is modelled by a boolean oracle giving, for each root-loop iteration, the
outcome of the elapsed-time test.  The destructive push/pop mutation of the
board is modelled by explicit state passing: the search functions return the
board alongside the score, so that restoration on every exit path is a
provable statement rather than an assumption.
-/

inductive PType where
  | pawn
  | knight
  | bishop
  | rook
  | queen
  | king
deriving DecidableEq

structure Piece where
  color : Bool
  ptype : PType
deriving DecidableEq

/-- Material values table `PIECE_VALUES` from the source (centipawns). -/
def PIECE_VALUES : PType → Int
  | .pawn => 100
  | .knight => 320
  | .bishop => 330
  | .rook => 500
  | .queen => 900
  | .king => 20000

def PAWN_PST : List Int :=
  [0,  0,  0,  0,  0,  0,  0,  0,
   50, 50, 50, 50, 50, 50, 50, 50,
   10, 10, 20, 30, 30, 20, 10, 10,
   5,  5, 10, 25, 25, 10,  5,  5,
   0,  0,  0, 20, 20,  0,  0,  0,
   5, -5,-10,  0,  0,-10, -5,  5,
   5, 10, 10,-20,-20, 10, 10,  5,
   0,  0,  0,  0,  0,  0,  0,  0]

def KNIGHT_PST : List Int :=
  [-50,-40,-30,-30,-30,-30,-40,-50,
   -40,-20,  0,  0,  0,  0,-20,-40,
   -30,  0, 10, 15, 15, 10,  0,-30,
   -30,  5, 15, 20, 20, 15,  5,-30,
   -30,  0, 15, 20, 20, 15,  0,-30,
   -30,  5, 10, 15, 15, 10,  5,-30,
   -40,-20,  0,  5,  5,  0,-20,-40,
   -50,-40,-30,-30,-30,-30,-40,-50]

def BISHOP_PST : List Int := KNIGHT_PST

def ROOK_PST : List Int := KNIGHT_PST

def QUEEN_PST : List Int := KNIGHT_PST

def KING_PST : List Int :=
  [-30,-40,-40,-50,-50,-40,-40,-30,
   -30,-40,-40,-50,-50,-40,-40,-30,
   -30,-40,-40,-50,-50,-40,-40,-30,
   -30,-40,-40,-50,-50,-40,-40,-30,
   -20,-30,-30,-40,-40,-30,-30,-20,
   -10,-20,-20,-20,-20,-20,-20,-10,
   20, 20,  0,  0,  0,  0, 20, 20,
   20, 30, 10,  0,  0, 10, 30, 20]

def PST_TABLES : PType → List Int
  | .pawn => PAWN_PST
  | .knight => KNIGHT_PST
  | .bishop => BISHOP_PST
  | .rook => ROOK_PST
  | .queen => QUEEN_PST
  | .king => KING_PST

/-- External rules collaborator (python-chess `Board`): the operations the
engine calls on a board, plus the two laws the spec states for the
collaborator: undo restores the board that was pushed (spec section 3,
BoardState invariant) and `copy` yields an identical board (value
semantics of a faithful copy). `turn b = true` means White to move, as
`chess.WHITE = True` and `chess.BLACK = False`. Squares are numbered
0..63 (`chess.SQUARES`), and `square_mirror` is xor with 56. -/
structure Rules (B M : Type) where
  turn : B → Bool
  piece_at : B → Nat → Option Piece
  is_checkmate : B → Bool
  is_stalemate : B → Bool
  is_insufficient_material : B → Bool
  is_game_over : B → Bool
  legal_moves : B → List M
  push : B → M → B
  pop : B → B
  copy : B → B
  pop_push : ∀ b m, pop (push b m) = b
  copy_eq : ∀ b, copy b = b

variable {B M : Type} {B1 M1 B2 M2 : Type}

/-- Body of the square loop of `evaluate_position`: accumulates the
(material, piece_square_score) pair exactly as the Python loop does. -/
def evalSquare (pz : Nat → Option Piece) (acc : Int × Int) (square : Nat) : Int × Int :=
  match pz square with
  | none => acc
  | some piece =>
    let value := PIECE_VALUES piece.ptype
    let pst := PST_TABLES piece.ptype
    let square_idx := if piece.color then square else square ^^^ 56
    let pst_value := pst.getD square_idx 0
    if piece.color then (acc.1 + value, acc.2 + pst_value)
    else (acc.1 - value, acc.2 - pst_value)

/-- Embedding of `evaluate_position` (identical in both source files). -/
def evaluate_position (R : Rules B M) (board : B) : Int :=
  if R.is_checkmate board then
    if R.turn board then -99999 else 99999
  else if R.is_stalemate board || R.is_insufficient_material board then 0
  else
    let p := (List.range 64).foldl (evalSquare (R.piece_at board)) (0, 0)
    let total_score := p.1 + p.2
    if R.turn board then total_score else -total_score

/-- Scores extended with the float sentinels `-inf` and `+inf` used by the
search: integers with a bottom and a top element adjoined. -/
abbrev XInt : Type := WithBot (WithTop Int)

/-- Embeds an ordinary integer score into `XInt`. -/
def xfin (n : Int) : XInt := ((n : WithTop Int) : XInt)

/-- Maximizing-branch loop of `alpha_beta`, state-passing: the first
component of `f`'s result is the child score, the second the board as the
recursive call left it.  Mirrors the Python `for move in legal_moves`
loop with its `break` on `beta <= alpha`. -/
def abMaxLoopSt (R : Rules B M) (f : B → XInt → XInt → XInt × B) :
    B → List M → XInt → XInt → XInt → XInt × B
  | board, [], _, _, best => (best, board)
  | board, m :: ms, alpha, beta, best =>
    let p := f (R.push board m) alpha beta
    let board2 := R.pop p.2
    let best2 := max best p.1
    let alpha2 := max alpha p.1
    if beta ≤ alpha2 then (best2, board2)
    else abMaxLoopSt R f board2 ms alpha2 beta best2

/-- Minimizing-branch loop of `alpha_beta`, state-passing. -/
def abMinLoopSt (R : Rules B M) (f : B → XInt → XInt → XInt × B) :
    B → List M → XInt → XInt → XInt → XInt × B
  | board, [], _, _, best => (best, board)
  | board, m :: ms, alpha, beta, best =>
    let p := f (R.push board m) alpha beta
    let board2 := R.pop p.2
    let best2 := min best p.1
    let beta2 := min beta p.1
    if beta2 ≤ alpha then (best2, board2)
    else abMinLoopSt R f board2 ms alpha beta2 best2

/-- Embedding of `alpha_beta` (identical in both source files), with the
mutated board threaded explicitly: the result is (returned score, board as
left behind for the caller). -/
def alpha_beta (R : Rules B M) : Nat → B → XInt → XInt → Bool → XInt × B
  | 0, board, _, _, _ => (xfin (evaluate_position R board), board)
  | d + 1, board, alpha, beta, maximizing_player =>
    if R.is_game_over board then (xfin (evaluate_position R board), board)
    else
      let legal_moves := R.legal_moves board
      if legal_moves.isEmpty then (xfin (evaluate_position R board), board)
      else if maximizing_player then
        abMaxLoopSt R (fun b a c => alpha_beta R d b a c false) board legal_moves alpha beta ⊥
      else
        abMinLoopSt R (fun b a c => alpha_beta R d b a c true) board legal_moves alpha beta ⊤

/-- Value-level maximizing loop (board dropped); used to reason about the
score computed by `abMaxLoopSt`. -/
def abMaxLoop (f : M → XInt → XInt → XInt) : List M → XInt → XInt → XInt → XInt
  | [], _, _, best => best
  | m :: ms, alpha, beta, best =>
    let r := f m alpha beta
    let best2 := max best r
    let alpha2 := max alpha r
    if beta ≤ alpha2 then best2 else abMaxLoop f ms alpha2 beta best2

/-- Value-level minimizing loop. -/
def abMinLoop (f : M → XInt → XInt → XInt) : List M → XInt → XInt → XInt → XInt
  | [], _, _, best => best
  | m :: ms, alpha, beta, best =>
    let r := f m alpha beta
    let best2 := min best r
    let beta2 := min beta r
    if beta2 ≤ alpha then best2 else abMinLoop f ms alpha beta2 best2

/-- Value level of `alpha_beta`: the score it returns, with the board
threading erased (justified by `alpha_beta_st`). -/
def alphaBetaVal (R : Rules B M) : Nat → B → XInt → XInt → Bool → XInt
  | 0, board, _, _, _ => xfin (evaluate_position R board)
  | d + 1, board, alpha, beta, maximizing_player =>
    if R.is_game_over board then xfin (evaluate_position R board)
    else
      let legal_moves := R.legal_moves board
      if legal_moves.isEmpty then xfin (evaluate_position R board)
      else if maximizing_player then
        abMaxLoop (fun m a c => alphaBetaVal R d (R.push board m) a c false)
          legal_moves alpha beta ⊥
      else
        abMinLoop (fun m a c => alphaBetaVal R d (R.push board m) a c true)
          legal_moves alpha beta ⊤

/-- Modelled from the spec: an unpruned full minimax over the same tree as
`alpha_beta`, using the same evaluator at the leaves ("the score from an
unpruned full minimax over the same tree", spec section 8). -/
def minimax (R : Rules B M) : Nat → B → Bool → XInt
  | 0, board, _ => xfin (evaluate_position R board)
  | d + 1, board, maximizing_player =>
    if R.is_game_over board then xfin (evaluate_position R board)
    else
      let legal_moves := R.legal_moves board
      if legal_moves.isEmpty then xfin (evaluate_position R board)
      else
        let vals := legal_moves.map fun m => minimax R d (R.push board m) (!maximizing_player)
        if maximizing_player then vals.foldl max ⊥ else vals.foldl min ⊤

/-- Fuel-indexed maximizing loop: `none` signals fuel exhaustion somewhere
below. -/
def abMaxLoopF (f : M → XInt → XInt → Option XInt) :
    List M → XInt → XInt → XInt → Option XInt
  | [], _, _, best => some best
  | m :: ms, alpha, beta, best =>
    match f m alpha beta with
    | none => none
    | some r =>
      let best2 := max best r
      let alpha2 := max alpha r
      if beta ≤ alpha2 then some best2 else abMaxLoopF f ms alpha2 beta best2

/-- Fuel-indexed minimizing loop. -/
def abMinLoopF (f : M → XInt → XInt → Option XInt) :
    List M → XInt → XInt → XInt → Option XInt
  | [], _, _, best => some best
  | m :: ms, alpha, beta, best =>
    match f m alpha beta with
    | none => none
    | some r =>
      let best2 := min best r
      let beta2 := min beta r
      if beta2 ≤ alpha then some best2 else abMinLoopF f ms alpha beta2 best2

/-- `alpha_beta` with an explicit call-stack budget: each call consumes one
unit of fuel, and `none` means the budget was exhausted before the
recursion bottomed out.  Used to state that the recursion depth of
`alpha_beta` is bounded by its `depth` parameter. -/
def alphaBetaFuel (R : Rules B M) : Nat → Nat → B → XInt → XInt → Bool → Option XInt
  | 0, _, _, _, _, _ => none
  | _ + 1, 0, board, _, _, _ => some (xfin (evaluate_position R board))
  | fuel + 1, d + 1, board, alpha, beta, maximizing_player =>
    if R.is_game_over board then some (xfin (evaluate_position R board))
    else
      let legal_moves := R.legal_moves board
      if legal_moves.isEmpty then some (xfin (evaluate_position R board))
      else if maximizing_player then
        abMaxLoopF (fun m a c => alphaBetaFuel R fuel d (R.push board m) a c false)
          legal_moves alpha beta ⊥
      else
        abMinLoopF (fun m a c => alphaBetaFuel R fuel d (R.push board m) a c true)
          legal_moves alpha beta ⊤

/-- Root loop of `find_best_move` in chessEngine_uci.py, state-passing over
the caller's board.  `tu i` is the outcome of the elapsed-time check at the
start of iteration `i`. -/
def fbmLoopUci (R : Rules B M) (depth : Nat) (tu : Nat → Bool) :
    Nat → B → List M → XInt → Option M → Option M × B
  | _, board, [], _, best_move => (best_move, board)
  | i, board, m :: ms, best_score, best_move =>
    if tu i then (best_move, board)
    else
      let pushed := R.push board m
      let p := alpha_beta R (depth - 1) pushed ⊥ ⊤ (R.turn pushed == false)
      let board2 := R.pop p.2
      if R.turn board2 then
        if best_score < p.1 then fbmLoopUci R depth tu (i + 1) board2 ms p.1 (some m)
        else fbmLoopUci R depth tu (i + 1) board2 ms best_score best_move
      else
        if p.1 < best_score then fbmLoopUci R depth tu (i + 1) board2 ms p.1 (some m)
        else fbmLoopUci R depth tu (i + 1) board2 ms best_score best_move

/-- Embedding of `find_best_move` from chessEngine_uci.py (searches on the
caller's board in place); returns the chosen move and the board as left for
the caller. -/
def find_best_move_uci (R : Rules B M) (tu : Nat → Bool) (board : B) (depth : Nat) :
    Option M × B :=
  let best_score : XInt := if R.turn board then ⊥ else ⊤
  let legal_moves := R.legal_moves board
  if legal_moves.isEmpty then (none, board)
  else fbmLoopUci R depth tu 0 board legal_moves best_score none

/-- Root loop of `find_best_move` in chess_engine_v3.py: collects
`move_scores` on the search board. -/
def fbmLoopV3 (R : Rules B M) (depth : Nat) (tu : Nat → Bool) :
    Nat → B → List M → List (M × XInt) → List (M × XInt) × B
  | _, sb, [], acc => (acc, sb)
  | i, sb, m :: ms, acc =>
    if tu i then (acc, sb)
    else
      let pushed := R.push sb m
      let p := alpha_beta R (depth - 1) pushed ⊥ ⊤ (R.turn pushed == false)
      let sb2 := R.pop p.2
      fbmLoopV3 R depth tu (i + 1) sb2 ms (acc ++ [(m, p.1)])

/-- Python `max(move_scores, key=lambda x: x[1])`: scans left to right and
replaces the current item only on a strictly greater key, so the first of
equal maxima is kept. -/
def pymax : M × XInt → List (M × XInt) → M × XInt
  | cur, [] => cur
  | cur, x :: xs => pymax (if cur.2 < x.2 then x else cur) xs

/-- Python `min(move_scores, key=lambda x: x[1])`. -/
def pymin : M × XInt → List (M × XInt) → M × XInt
  | cur, [] => cur
  | cur, x :: xs => pymin (if x.2 < cur.2 then x else cur) xs

/-- Embedding of `find_best_move` from chess_engine_v3.py: evaluates the
candidates on `board.copy()` and re-validates the chosen move against the
live board before returning it. -/
def find_best_move_v3 [DecidableEq M] (R : Rules B M) (tu : Nat → Bool)
    (board : B) (depth : Nat) : Option M :=
  let search_board := R.copy board
  let legal_moves := R.legal_moves search_board
  if legal_moves.isEmpty then none
  else
    match (fbmLoopV3 R depth tu 0 search_board legal_moves []).1 with
    | [] => legal_moves.head?
    | s :: rest =>
      let best := if R.turn board then pymax s rest else pymin s rest
      if best.1 ∈ R.legal_moves board then some best.1 else legal_moves.head?

/-- Selection kernel of the uci root loop, isolated from the search: the
strict-improvement scan over an already-scored move list. -/
def selMax : List (M × XInt) → XInt → Option M → Option M
  | [], _, best_move => best_move
  | x :: xs, best_score, best_move =>
    if best_score < x.2 then selMax xs x.2 (some x.1)
    else selMax xs best_score best_move

/-- Minimizing selection kernel of the uci root loop. -/
def selMin : List (M × XInt) → XInt → Option M → Option M
  | [], _, best_move => best_move
  | x :: xs, best_score, best_move =>
    if x.2 < best_score then selMin xs x.2 (some x.1)
    else selMin xs best_score best_move

/-- Resolution step of the strict-improvement scan: what the scan returns
given the first maximal element of the remaining list (if any). -/
def postMax (bs : XInt) (bm : Option M) : Option (M × XInt) → Option M
  | none => bm
  | some y => if bs < y.2 then some y.1 else bm

/-- Resolution step of the strict-decrease scan. -/
def postMin (bs : XInt) (bm : Option M) : Option (M × XInt) → Option M
  | none => bm
  | some y => if y.2 < bs then some y.1 else bm

/-- Resolution step of the python `max` scan relative to the first maximal
element of the tail. -/
def pmMax (cur : M × XInt) : Option (M × XInt) → M × XInt
  | none => cur
  | some y => if cur.2 < y.2 then y else cur

/-- Resolution step of the python `min` scan. -/
def pmMin (cur : M × XInt) : Option (M × XInt) → M × XInt
  | none => cur
  | some y => if y.2 < cur.2 then y else cur

/-- Modelled from the spec: "ties keep the first-seen move" — the first
element of the list attaining the maximal key: a later element displaces an
earlier one only by a strictly greater key. -/
def firstMax : List (M × XInt) → Option (M × XInt)
  | [] => none
  | x :: xs => some (pmMax x (firstMax xs))

/-- Modelled from the spec: the first element attaining the minimal key. -/
def firstMin : List (M × XInt) → Option (M × XInt)
  | [] => none
  | x :: xs => some (pmMin x (firstMin xs))

/-- The list of root moves paired with the full-window score the root loop
computes for each (push the move, search with depth-1 and maximizing set to
"Black to move after the push", pop). -/
def scoredList (R : Rules B M) (board : B) (depth : Nat) (ms : List M) : List (M × XInt) :=
  ms.map fun m =>
    (m, (alpha_beta R (depth - 1) (R.push board m) ⊥ ⊤ (R.turn (R.push board m) == false)).1)

/-- Positions reachable from `b` by at most `d` pushes of legal moves. -/
inductive Reach (R : Rules B M) : B → Nat → B → Prop
  | refl (b : B) (d : Nat) : Reach R b d b
  | step (b : B) (d : Nat) (m : M) (b' : B) (hm : m ∈ R.legal_moves b)
      (h : Reach R (R.push b m) d b') : Reach R b (d + 1) b'

/-- Embedding of the FEN extraction in `uci_loop`
(chessEngine_uci.py line 169):
`" ".join(parts[2 : parts.index("moves") if "moves" in parts else -1])`.
A Python slice `l[2:k]` with `k ≥ 0` is `(l.take k).drop 2`, and `l[2:-1]`
is `(l.take (l.length - 1)).drop 2`. -/
def fenOfParts (parts : List String) : String :=
  let stop := if "moves" ∈ parts then parts.findIdx (fun s => s == "moves")
    else parts.length - 1
  String.intercalate " " ((parts.take stop).drop 2)

/-- The protocol line `position fen <full FEN>` with no moves suffix,
whitespace-split. -/
def c8Parts : List String :=
  ["position", "fen", "rnbqkbnr/pppppppp/8/8/8/8/PPPPPPPP/RNBQKBNR",
   "w", "KQkq", "-", "0", "1"]

/-- Signed material contribution of one square (White positive). -/
def sqMat (pz : Nat → Option Piece) (square : Nat) : Int :=
  match pz square with
  | none => 0
  | some piece =>
    if piece.color then PIECE_VALUES piece.ptype else -PIECE_VALUES piece.ptype

/-- Signed piece-square-table contribution of one square. -/
def sqPst (pz : Nat → Option Piece) (square : Nat) : Int :=
  match pz square with
  | none => 0
  | some piece =>
    let square_idx := if piece.color then square else square ^^^ 56
    if piece.color then (PST_TABLES piece.ptype).getD square_idx 0
    else -((PST_TABLES piece.ptype).getD square_idx 0)

/-- Swaps the color of a piece, keeping its kind. -/
def flipPiece (p : Piece) : Piece := ⟨!p.color, p.ptype⟩

/-- A board snapshot: the data `evaluate_position` observes.  The terminal
flags are the answers of the external rules collaborator for the position
the snapshot stands for. -/
structure Snapshot where
  turn : Bool
  pieces : Nat → Option Piece
  checkmate : Bool
  stalemate : Bool
  insufficient : Bool

/-- A rules collaborator for a single frozen position (no move play);
used to evaluate `evaluate_position` on concrete positions. -/
def snapRules (s : Snapshot) : Rules Unit Unit where
  turn := fun _ => s.turn
  piece_at := fun _ sq => s.pieces sq
  is_checkmate := fun _ => s.checkmate
  is_stalemate := fun _ => s.stalemate
  is_insufficient_material := fun _ => s.insufficient
  is_game_over := fun _ => s.checkmate || s.stalemate || s.insufficient
  legal_moves := fun _ => []
  push := fun b _ => b
  pop := fun b => b
  copy := fun b => b
  pop_push := fun _ _ => rfl
  copy_eq := fun _ => rfl

/-- Color-relabelling and vertical mirroring of a snapshot (the spec's
symmetry transformation, including flipping the side to move). -/
def mirrorSnap (s : Snapshot) : Snapshot where
  turn := !s.turn
  pieces := fun sq => (s.pieces (sq ^^^ 56)).map flipPiece
  checkmate := s.checkmate
  stalemate := s.stalemate
  insufficient := s.insufficient

/-- Position after 1.e4 e5 2.Bc4 Nc6 3.Qh5 Nf6 4.Qxf7# (scholar's mate):
Black to move and checkmated. -/
def scholarPlacement : List (Nat × Piece) :=
  [(0, ⟨true, .rook⟩), (1, ⟨true, .knight⟩), (2, ⟨true, .bishop⟩),
   (3, ⟨true, .queen⟩), (4, ⟨true, .king⟩), (6, ⟨true, .knight⟩),
   (7, ⟨true, .rook⟩),
   (8, ⟨true, .pawn⟩), (9, ⟨true, .pawn⟩), (10, ⟨true, .pawn⟩),
   (11, ⟨true, .pawn⟩), (13, ⟨true, .pawn⟩), (14, ⟨true, .pawn⟩),
   (15, ⟨true, .pawn⟩),
   (26, ⟨true, .bishop⟩), (28, ⟨true, .pawn⟩),
   (36, ⟨false, .pawn⟩), (42, ⟨false, .knight⟩), (45, ⟨false, .knight⟩),
   (48, ⟨false, .pawn⟩), (49, ⟨false, .pawn⟩), (50, ⟨false, .pawn⟩),
   (51, ⟨false, .pawn⟩), (53, ⟨true, .queen⟩), (54, ⟨false, .pawn⟩),
   (55, ⟨false, .pawn⟩),
   (56, ⟨false, .rook⟩), (58, ⟨false, .bishop⟩), (59, ⟨false, .queen⟩),
   (60, ⟨false, .king⟩), (61, ⟨false, .bishop⟩), (63, ⟨false, .rook⟩)]

def scholarSnap : Snapshot where
  turn := false
  pieces := fun sq => scholarPlacement.lookup sq
  checkmate := true
  stalemate := false
  insufficient := false

/-- Position after 1.f3 e5 2.g4 Qh4# (fool's mate): White to move and
checkmated. -/
def foolPlacement : List (Nat × Piece) :=
  [(0, ⟨true, .rook⟩), (1, ⟨true, .knight⟩), (2, ⟨true, .bishop⟩),
   (3, ⟨true, .queen⟩), (4, ⟨true, .king⟩), (5, ⟨true, .bishop⟩),
   (6, ⟨true, .knight⟩), (7, ⟨true, .rook⟩),
   (8, ⟨true, .pawn⟩), (9, ⟨true, .pawn⟩), (10, ⟨true, .pawn⟩),
   (11, ⟨true, .pawn⟩), (12, ⟨true, .pawn⟩), (15, ⟨true, .pawn⟩),
   (21, ⟨true, .pawn⟩), (30, ⟨true, .pawn⟩), (31, ⟨false, .queen⟩),
   (36, ⟨false, .pawn⟩),
   (48, ⟨false, .pawn⟩), (49, ⟨false, .pawn⟩), (50, ⟨false, .pawn⟩),
   (51, ⟨false, .pawn⟩), (53, ⟨false, .pawn⟩), (54, ⟨false, .pawn⟩),
   (55, ⟨false, .pawn⟩),
   (56, ⟨false, .rook⟩), (57, ⟨false, .knight⟩), (58, ⟨false, .bishop⟩),
   (60, ⟨false, .king⟩), (61, ⟨false, .bishop⟩), (62, ⟨false, .knight⟩),
   (63, ⟨false, .rook⟩)]

def foolSnap : Snapshot where
  turn := true
  pieces := fun sq => foolPlacement.lookup sq
  checkmate := true
  stalemate := false
  insufficient := false

/-- Kings on e1/e8, a white pawn on e4, White to move: a reachable,
non-terminal position with a nonzero evaluation. -/
def pawnSnap : Snapshot where
  turn := true
  pieces := fun sq =>
    if sq = 4 then some ⟨true, .king⟩
    else if sq = 60 then some ⟨false, .king⟩
    else if sq = 28 then some ⟨true, .pawn⟩
    else none
  checkmate := false
  stalemate := false
  insufficient := false

/-- A small concrete game used to exercise the search functions on closed
inputs: a board is the stack of moves played (most recent first), two moves
are available for the first two plies, and the single white pawn sits on a
square determined by the moves played, so different lines evaluate
differently. -/
def toyRules : Rules (List Nat) Nat where
  turn := fun b => b.length % 2 == 0
  piece_at := fun b sq => if sq = 8 + b.sum % 48 then some ⟨true, .pawn⟩ else none
  is_checkmate := fun _ => false
  is_stalemate := fun _ => false
  is_insufficient_material := fun _ => false
  is_game_over := fun b => decide (2 ≤ b.length)
  legal_moves := fun b => if b.length < 2 then [0, 1] else []
  push := fun b m => m :: b
  pop := fun b => b.tail
  copy := fun b => b
  pop_push := fun _ _ => rfl
  copy_eq := fun _ => rfl

/-- Knuth–Moore relation: what a fail-soft alpha-beta result `r` says about
the true minimax value `v` relative to the window (alpha, beta). -/
def KMP (r v alpha beta : XInt) : Prop :=
  (r ≤ alpha → v ≤ r) ∧ (beta ≤ r → r ≤ v) ∧ (alpha < r → r < beta → r = v)

theorem bot_lt_xfin (n : Int) : (⊥ : XInt) < xfin n :=
  WithBot.bot_lt_coe _

theorem xfin_lt_top (n : Int) : xfin n < (⊤ : XInt) := by
  have h : ((⊤ : WithTop Int) : XInt) = (⊤ : XInt) := rfl
  rw [← h]
  exact WithBot.coe_lt_coe.mpr (WithTop.coe_lt_top n)

theorem abMaxLoopSt_eq (R : Rules B M) (fSt : B → XInt → XInt → XInt × B)
    (fV : B → XInt → XInt → XInt) (hf : ∀ b a c, fSt b a c = (fV b a c, b)) :
    ∀ (ms : List M) (board : B) (alpha beta best : XInt),
      abMaxLoopSt R fSt board ms alpha beta best
        = (abMaxLoop (fun m a c => fV (R.push board m) a c) ms alpha beta best, board) := by
  intro ms
  induction ms with
  | nil => intro board alpha beta best; rfl
  | cons m ms ih =>
    intro board alpha beta best
    simp only [abMaxLoopSt, abMaxLoop, hf, R.pop_push]
    split
    · rfl
    · exact ih board _ _ _

theorem abMinLoopSt_eq (R : Rules B M) (fSt : B → XInt → XInt → XInt × B)
    (fV : B → XInt → XInt → XInt) (hf : ∀ b a c, fSt b a c = (fV b a c, b)) :
    ∀ (ms : List M) (board : B) (alpha beta best : XInt),
      abMinLoopSt R fSt board ms alpha beta best
        = (abMinLoop (fun m a c => fV (R.push board m) a c) ms alpha beta best, board) := by
  intro ms
  induction ms with
  | nil => intro board alpha beta best; rfl
  | cons m ms ih =>
    intro board alpha beta best
    simp only [abMinLoopSt, abMinLoop, hf, R.pop_push]
    split
    · rfl
    · exact ih board _ _ _

theorem alpha_beta_st (R : Rules B M) :
    ∀ (d : Nat) (board : B) (alpha beta : XInt) (mx : Bool),
      alpha_beta R d board alpha beta mx = (alphaBetaVal R d board alpha beta mx, board) := by
  intro d
  induction d with
  | zero => intro board alpha beta mx; rfl
  | succ d ih =>
    intro board alpha beta mx
    simp only [alpha_beta, alphaBetaVal]
    split
    · rfl
    · split
      · rfl
      · split
        · exact abMaxLoopSt_eq R _ _ (fun b a c => ih b a c false) _ _ _ _ _
        · exact abMinLoopSt_eq R _ _ (fun b a c => ih b a c true) _ _ _ _ _

theorem fbmLoopUci_board (R : Rules B M) (depth : Nat) (tu : Nat → Bool) :
    ∀ (ms : List M) (i : Nat) (board : B) (bs : XInt) (bm : Option M),
      (fbmLoopUci R depth tu i board ms bs bm).2 = board := by
  intro ms
  induction ms with
  | nil => intro i board bs bm; rfl
  | cons m ms ih =>
    intro i board bs bm
    simp only [fbmLoopUci, alpha_beta_st, R.pop_push]
    split
    · rfl
    · split
      · split
        · exact ih _ _ _ _
        · exact ih _ _ _ _
      · split
        · exact ih _ _ _ _
        · exact ih _ _ _ _

theorem fbmLoopV3_board (R : Rules B M) (depth : Nat) (tu : Nat → Bool) :
    ∀ (ms : List M) (i : Nat) (sb : B) (acc : List (M × XInt)),
      (fbmLoopV3 R depth tu i sb ms acc).2 = sb := by
  intro ms
  induction ms with
  | nil => intro i sb acc; rfl
  | cons m ms ih =>
    intro i sb acc
    simp only [fbmLoopV3, alpha_beta_st, R.pop_push]
    split
    · rfl
    · exact ih _ _ _

theorem find_best_move_uci_board (R : Rules B M) (tu : Nat → Bool) (board : B)
    (depth : Nat) : (find_best_move_uci R tu board depth).2 = board := by
  simp only [find_best_move_uci]
  split
  · rfl
  · exact fbmLoopUci_board R depth tu _ _ _ _ _

/-- C3: every call to the search leaves the caller's board exactly as it
was: `alpha_beta` restores its board argument on every exit path (normal
return, beta cutoff, empty-move fallback), the uci `find_best_move` root
loop restores the caller's board on every exit path (including the
time-limit break and the no-legal-moves return), and the v3 root loop
restores the search board it borrows. -/
theorem C3_board_restoration (R : Rules B M) (d : Nat) (board : B)
    (alpha beta : XInt) (mx : Bool) (tu : Nat → Bool) (depth : Nat) :
    (alpha_beta R d board alpha beta mx).2 = board ∧
    (find_best_move_uci R tu board depth).2 = board ∧
    (∀ (ms : List M) (acc : List (M × XInt)) (i : Nat),
      (fbmLoopV3 R depth tu i board ms acc).2 = board) := by
  refine ⟨?_, find_best_move_uci_board R tu board depth, ?_⟩
  · rw [alpha_beta_st]
  · intro ms acc i
    exact fbmLoopV3_board R depth tu ms i board acc

theorem le_foldl_max {A : Type} [LinearOrder A] :
    ∀ (l : List A) (i : A), i ≤ l.foldl max i := by
  intro l
  induction l with
  | nil => intro i; exact le_refl i
  | cons x l ih =>
    intro i
    exact le_trans (le_max_left i x) (ih (max i x))

theorem foldl_min_le {A : Type} [LinearOrder A] :
    ∀ (l : List A) (i : A), l.foldl min i ≤ i := by
  intro l
  induction l with
  | nil => intro i; exact le_refl i
  | cons x l ih =>
    intro i
    exact le_trans (ih (min i x)) (min_le_left i x)

theorem foldl_max_split {A : Type} [LinearOrder A] :
    ∀ (l : List A) (i j : A), l.foldl max (max i j) = max i (l.foldl max j) := by
  intro l
  induction l with
  | nil => intro i j; rfl
  | cons x l ih =>
    intro i j
    simp only [List.foldl_cons]
    rw [max_assoc, ih]

theorem foldl_min_split {A : Type} [LinearOrder A] :
    ∀ (l : List A) (i j : A), l.foldl min (min i j) = min i (l.foldl min j) := by
  intro l
  induction l with
  | nil => intro i j; rfl
  | cons x l ih =>
    intro i j
    simp only [List.foldl_cons]
    rw [min_assoc, ih]

theorem foldl_max_mono {A : Type} [LinearOrder A] :
    ∀ (l : List A) (i j : A), i ≤ j → l.foldl max i ≤ l.foldl max j := by
  intro l
  induction l with
  | nil => intro i j h; exact h
  | cons x l ih =>
    intro i j h
    simp only [List.foldl_cons]
    exact ih _ _ (max_le_max h (le_refl x))

theorem foldl_min_mono {A : Type} [LinearOrder A] :
    ∀ (l : List A) (i j : A), i ≤ j → l.foldl min i ≤ l.foldl min j := by
  intro l
  induction l with
  | nil => intro i j h; exact h
  | cons x l ih =>
    intro i j h
    simp only [List.foldl_cons]
    exact ih _ _ (min_le_min h (le_refl x))

theorem abMaxLoop_ge (f : M → XInt → XInt → XInt) :
    ∀ (ms : List M) (alpha beta best : XInt), best ≤ abMaxLoop f ms alpha beta best := by
  intro ms
  induction ms with
  | nil => intro alpha beta best; exact le_refl best
  | cons m ms ih =>
    intro alpha beta best
    simp only [abMaxLoop]
    split
    · exact le_max_left best _
    · exact le_trans (le_max_left best _) (ih _ _ _)

theorem abMinLoop_le (f : M → XInt → XInt → XInt) :
    ∀ (ms : List M) (alpha beta best : XInt), abMinLoop f ms alpha beta best ≤ best := by
  intro ms
  induction ms with
  | nil => intro alpha beta best; exact le_refl best
  | cons m ms ih =>
    intro alpha beta best
    simp only [abMinLoop]
    split
    · exact min_le_left best _
    · exact le_trans (ih _ _ _) (min_le_left best _)

theorem km_abMaxLoop (f : M → XInt → XInt → XInt) (g : M → XInt) :
    ∀ (ms : List M) (alpha beta best : XInt),
      alpha < beta → best ≤ alpha →
      (∀ m ∈ ms, ∀ a c, a < c → KMP (f m a c) (g m) a c) →
      KMP (abMaxLoop f ms alpha beta best) ((ms.map g).foldl max best) alpha beta := by
  intro ms
  induction ms with
  | nil =>
    intro alpha beta best _ _ _
    exact ⟨fun _ => le_refl _, fun _ => le_refl _, fun _ _ => rfl⟩
  | cons m ms ih =>
    intro alpha beta best hab hbest hf
    obtain ⟨h1, h2, h3⟩ := hf m (List.mem_cons_self m ms) alpha beta hab
    have hftail : ∀ m' ∈ ms, ∀ a c, a < c → KMP (f m' a c) (g m') a c :=
      fun m' hm' a c hac => hf m' (List.mem_cons_of_mem m hm') a c hac
    simp only [abMaxLoop, List.map_cons, List.foldl_cons]
    set r := f m alpha beta with hrdef
    by_cases hc : beta ≤ max alpha r
    · rw [if_pos hc]
      have hbr : beta ≤ r := by
        rcases le_max_iff.mp hc with h | h
        · exact absurd h (not_le.mpr hab)
        · exact h
      have hbestr : max best r = r :=
        max_eq_right (le_trans hbest (le_of_lt (lt_of_lt_of_le hab hbr)))
      rw [hbestr]
      refine ⟨?_, ?_, ?_⟩
      · intro hra
        exact absurd (lt_of_lt_of_le hab hbr) (not_lt.mpr hra)
      · intro _
        exact le_trans (h2 hbr) (le_trans (le_max_right best (g m)) (le_foldl_max _ _))
      · intro _ hrb
        exact absurd hrb (not_lt.mpr hbr)
    · rw [if_neg hc]
      push_neg at hc
      by_cases hra : r ≤ alpha
      · have ha2 : max alpha r = alpha := max_eq_left hra
        have hgm : g m ≤ r := h1 hra
        have hb2 : max best r ≤ alpha := max_le hbest hra
        rw [ha2]
        obtain ⟨i1, i2, i3⟩ := ih alpha beta (max best r) hab hb2 hftail
        have hWle : (ms.map g).foldl max (max best (g m))
            ≤ (ms.map g).foldl max (max best r) :=
          foldl_max_mono _ _ _ (max_le_max (le_refl best) hgm)
        have hW2S : (ms.map g).foldl max (max best r)
            = max (max best r) ((ms.map g).foldl max ⊥) := by
          conv_lhs => rw [← max_eq_left (bot_le : (⊥ : XInt) ≤ max best r)]
          exact foldl_max_split _ _ _
        have hWS : (ms.map g).foldl max (max best (g m))
            = max (max best (g m)) ((ms.map g).foldl max ⊥) := by
          conv_lhs => rw [← max_eq_left (bot_le : (⊥ : XInt) ≤ max best (g m))]
          exact foldl_max_split _ _ _
        refine ⟨?_, ?_, ?_⟩
        · intro h
          exact le_trans hWle (i1 h)
        · intro hb
          have hres2 := i2 hb
          rw [hW2S] at hres2
          have hlt : max best r < abMaxLoop f ms alpha beta (max best r) :=
            lt_of_le_of_lt hb2 (lt_of_lt_of_le hab hb)
          have hresS : abMaxLoop f ms alpha beta (max best r) ≤ (ms.map g).foldl max ⊥ := by
            rcases le_max_iff.mp hres2 with h' | h'
            · exact absurd hlt (not_lt.mpr h')
            · exact h'
          rw [hWS]
          exact le_trans hresS (le_max_right _ _)
        · intro h1' h2'
          have hres3 := i3 h1' h2'
          rw [hW2S] at hres3
          have hlt : max best r < abMaxLoop f ms alpha beta (max best r) :=
            lt_of_le_of_lt hb2 h1'
          have hresS : abMaxLoop f ms alpha beta (max best r) = (ms.map g).foldl max ⊥ := by
            rcases max_choice (max best r) ((ms.map g).foldl max ⊥) with hch | hch
            · rw [hch] at hres3
              rw [hres3] at hlt
              exact absurd hlt (lt_irrefl _)
            · rw [hch] at hres3
              exact hres3
          rw [hWS]
          have hsmall : max best (g m) ≤ (ms.map g).foldl max ⊥ := by
            have h5 : max best (g m) ≤ alpha := max_le hbest (le_trans hgm hra)
            have h6 : alpha < (ms.map g).foldl max ⊥ := by
              rw [← hresS]; exact h1'
            exact le_trans h5 (le_of_lt h6)
          rw [max_eq_right hsmall]
          exact hresS
      · push_neg at hra
        have hrb : r < beta := lt_of_le_of_lt (le_max_right alpha r) hc
        have hgm : r = g m := h3 hra hrb
        have ha2 : max alpha r = r := max_eq_right (le_of_lt hra)
        rw [ha2, ← hgm]
        have hb2 : max best r ≤ r := max_le (le_trans hbest (le_of_lt hra)) (le_refl r)
        obtain ⟨i1, i2, i3⟩ := ih r beta (max best r) hrb hb2 hftail
        have hge : max best r ≤ abMaxLoop f ms r beta (max best r) :=
          abMaxLoop_ge f ms r beta (max best r)
        refine ⟨?_, ?_, ?_⟩
        · intro h
          exact absurd (lt_of_lt_of_le hra (le_trans (le_max_right best r) hge)) (not_lt.mpr h)
        · exact i2
        · intro _ hb'
          rcases lt_or_le r (abMaxLoop f ms r beta (max best r)) with hlt | hle
          · exact i3 hlt hb'
          · have hres_eq : abMaxLoop f ms r beta (max best r) = max best r :=
              le_antisymm (le_trans hle (le_max_right best r)) hge
            refine le_antisymm ?_ (i1 hle)
            rw [hres_eq]
            exact le_foldl_max _ _

theorem km_abMinLoop (f : M → XInt → XInt → XInt) (g : M → XInt) :
    ∀ (ms : List M) (alpha beta best : XInt),
      alpha < beta → beta ≤ best →
      (∀ m ∈ ms, ∀ a c, a < c → KMP (f m a c) (g m) a c) →
      KMP (abMinLoop f ms alpha beta best) ((ms.map g).foldl min best) alpha beta := by
  intro ms
  induction ms with
  | nil =>
    intro alpha beta best _ _ _
    exact ⟨fun _ => le_refl _, fun _ => le_refl _, fun _ _ => rfl⟩
  | cons m ms ih =>
    intro alpha beta best hab hbest hf
    obtain ⟨h1, h2, h3⟩ := hf m (List.mem_cons_self m ms) alpha beta hab
    have hftail : ∀ m' ∈ ms, ∀ a c, a < c → KMP (f m' a c) (g m') a c :=
      fun m' hm' a c hac => hf m' (List.mem_cons_of_mem m hm') a c hac
    simp only [abMinLoop, List.map_cons, List.foldl_cons]
    set r := f m alpha beta with hrdef
    by_cases hc : min beta r ≤ alpha
    · rw [if_pos hc]
      have hra : r ≤ alpha := by
        rcases min_le_iff.mp hc with h | h
        · exact absurd h (not_le.mpr hab)
        · exact h
      have hbestr : min best r = r :=
        min_eq_right (le_trans hra (le_of_lt (lt_of_lt_of_le hab hbest)))
      rw [hbestr]
      refine ⟨?_, ?_, ?_⟩
      · intro _
        exact le_trans (foldl_min_le _ _) (le_trans (min_le_right best (g m)) (h1 hra))
      · intro hb
        exact absurd (lt_of_lt_of_le hab hb) (not_lt.mpr hra)
      · intro h1' _
        exact absurd h1' (not_lt.mpr hra)
    · rw [if_neg hc]
      push_neg at hc
      by_cases hrb : beta ≤ r
      · have hbeta2 : min beta r = beta := min_eq_left hrb
        have hgm : r ≤ g m := h2 hrb
        have hb2 : beta ≤ min best r := le_min hbest hrb
        rw [hbeta2]
        obtain ⟨i1, i2, i3⟩ := ih alpha beta (min best r) hab hb2 hftail
        have hWle : (ms.map g).foldl min (min best r)
            ≤ (ms.map g).foldl min (min best (g m)) :=
          foldl_min_mono _ _ _ (min_le_min (le_refl best) hgm)
        have hW2S : (ms.map g).foldl min (min best r)
            = min (min best r) ((ms.map g).foldl min ⊤) := by
          conv_lhs => rw [← min_eq_left (le_top : min best r ≤ (⊤ : XInt))]
          exact foldl_min_split _ _ _
        have hWS : (ms.map g).foldl min (min best (g m))
            = min (min best (g m)) ((ms.map g).foldl min ⊤) := by
          conv_lhs => rw [← min_eq_left (le_top : min best (g m) ≤ (⊤ : XInt))]
          exact foldl_min_split _ _ _
        refine ⟨?_, ?_, ?_⟩
        · intro h
          have hres1 := i1 h
          rw [hW2S] at hres1
          have hlt : abMinLoop f ms alpha beta (min best r) < min best r :=
            lt_of_le_of_lt h (lt_of_lt_of_le hab hb2)
          have hresS : (ms.map g).foldl min ⊤ ≤ abMinLoop f ms alpha beta (min best r) := by
            rcases min_le_iff.mp hres1 with h' | h'
            · exact absurd hlt (not_lt.mpr h')
            · exact h'
          rw [hWS]
          exact le_trans (min_le_right _ _) hresS
        · intro hb
          exact le_trans (i2 hb) hWle
        · intro h1' h2'
          have hres3 := i3 h1' h2'
          rw [hW2S] at hres3
          have hlt : abMinLoop f ms alpha beta (min best r) < min best r :=
            lt_of_lt_of_le h2' hb2
          have hresS : abMinLoop f ms alpha beta (min best r) = (ms.map g).foldl min ⊤ := by
            rcases min_choice (min best r) ((ms.map g).foldl min ⊤) with hch | hch
            · rw [hch] at hres3
              rw [hres3] at hlt
              exact absurd hlt (lt_irrefl _)
            · rw [hch] at hres3
              exact hres3
          rw [hWS]
          have hsmall : (ms.map g).foldl min ⊤ ≤ min best (g m) := by
            have h5 : beta ≤ min best (g m) := le_min hbest (le_trans hrb hgm)
            have h6 : (ms.map g).foldl min ⊤ < beta := by
              rw [← hresS]; exact h2'
            exact le_trans (le_of_lt h6) h5
          rw [min_eq_right hsmall]
          exact hresS
      · push_neg at hrb
        have hra : alpha < r := lt_of_lt_of_le hc (min_le_right beta r)
        have hgm : r = g m := h3 hra hrb
        have hbeta2 : min beta r = r := min_eq_right (le_of_lt hrb)
        rw [hbeta2, ← hgm]
        have hb2 : r ≤ min best r := le_min (le_trans (le_of_lt hrb) hbest) (le_refl r)
        obtain ⟨i1, i2, i3⟩ := ih alpha r (min best r) hra hb2 hftail
        have hle_res : abMinLoop f ms alpha r (min best r) ≤ min best r :=
          abMinLoop_le f ms alpha r (min best r)
        refine ⟨?_, ?_, ?_⟩
        · exact i1
        · intro hb
          have : abMinLoop f ms alpha r (min best r) < beta :=
            lt_of_le_of_lt (le_trans hle_res (min_le_right best r)) hrb
          exact absurd this (not_lt.mpr hb)
        · intro h1' _
          rcases lt_or_le (abMinLoop f ms alpha r (min best r)) r with hlt | hle
          · exact i3 h1' hlt
          · have hres_eq : abMinLoop f ms alpha r (min best r) = min best r :=
              le_antisymm hle_res (le_trans (min_le_right best r) hle)
            refine le_antisymm (i2 hle) ?_
            rw [hres_eq]
            exact foldl_min_le _ _

theorem KMP_refl (r alpha beta : XInt) : KMP r r alpha beta :=
  ⟨fun _ => le_refl r, fun _ => le_refl r, fun _ _ => rfl⟩

theorem km_main (R : Rules B M) :
    ∀ (d : Nat) (board : B) (alpha beta : XInt) (mx : Bool),
      alpha < beta →
      KMP (alphaBetaVal R d board alpha beta mx) (minimax R d board mx) alpha beta := by
  intro d
  induction d with
  | zero =>
    intro board alpha beta mx _
    exact KMP_refl _ _ _
  | succ d ih =>
    intro board alpha beta mx hab
    simp only [alphaBetaVal, minimax]
    by_cases hgo : R.is_game_over board = true
    · simp only [hgo, if_true]
      exact KMP_refl _ _ _
    · simp only [hgo, if_false, Bool.false_eq_true]
      by_cases hemp : (R.legal_moves board).isEmpty = true
      · simp only [hemp, if_true]
        exact KMP_refl _ _ _
      · simp only [hemp, if_false, Bool.false_eq_true]
        cases mx with
        | true =>
          simp only [if_true, Bool.not_true]
          exact km_abMaxLoop _ _ (R.legal_moves board) alpha beta ⊥ hab bot_le
            (fun m _ a c hac => ih (R.push board m) a c false hac)
        | false =>
          simp only [if_false, Bool.not_false, Bool.false_eq_true]
          exact km_abMinLoop _ _ (R.legal_moves board) alpha beta ⊤ hab le_top
            (fun m _ a c hac => ih (R.push board m) a c true hac)

theorem abMaxLoop_pred (Q : XInt → Prop) (f : M → XInt → XInt → XInt) :
    ∀ (ms : List M) (alpha beta best : XInt),
      Q best → (∀ m ∈ ms, ∀ a c, Q (f m a c)) →
      Q (abMaxLoop f ms alpha beta best) := by
  intro ms
  induction ms with
  | nil => intro alpha beta best hb _; exact hb
  | cons m ms ih =>
    intro alpha beta best hb hf
    simp only [abMaxLoop]
    have hb2 : Q (max best (f m alpha beta)) := by
      rcases max_choice best (f m alpha beta) with h | h
      · rw [h]; exact hb
      · rw [h]; exact hf m (List.mem_cons_self m ms) alpha beta
    split
    · exact hb2
    · exact ih _ _ _ hb2 (fun m' hm' a c => hf m' (List.mem_cons_of_mem m hm') a c)

theorem abMinLoop_pred (Q : XInt → Prop) (f : M → XInt → XInt → XInt) :
    ∀ (ms : List M) (alpha beta best : XInt),
      Q best → (∀ m ∈ ms, ∀ a c, Q (f m a c)) →
      Q (abMinLoop f ms alpha beta best) := by
  intro ms
  induction ms with
  | nil => intro alpha beta best hb _; exact hb
  | cons m ms ih =>
    intro alpha beta best hb hf
    simp only [abMinLoop]
    have hb2 : Q (min best (f m alpha beta)) := by
      rcases min_choice best (f m alpha beta) with h | h
      · rw [h]; exact hb
      · rw [h]; exact hf m (List.mem_cons_self m ms) alpha beta
    split
    · exact hb2
    · exact ih _ _ _ hb2 (fun m' hm' a c => hf m' (List.mem_cons_of_mem m hm') a c)

theorem abMaxLoop_pred_bot (Q : XInt → Prop) (f : M → XInt → XInt → XInt)
    (m : M) (ms : List M) (alpha beta : XInt)
    (hf : ∀ m' ∈ m :: ms, ∀ a c, Q (f m' a c)) :
    Q (abMaxLoop f (m :: ms) alpha beta ⊥) := by
  simp only [abMaxLoop]
  rw [max_eq_right (bot_le : (⊥ : XInt) ≤ f m alpha beta)]
  split
  · exact hf m (List.mem_cons_self m ms) alpha beta
  · exact abMaxLoop_pred Q f ms _ _ _ (hf m (List.mem_cons_self m ms) alpha beta)
      (fun m' hm' a c => hf m' (List.mem_cons_of_mem m hm') a c)

theorem abMinLoop_pred_top (Q : XInt → Prop) (f : M → XInt → XInt → XInt)
    (m : M) (ms : List M) (alpha beta : XInt)
    (hf : ∀ m' ∈ m :: ms, ∀ a c, Q (f m' a c)) :
    Q (abMinLoop f (m :: ms) alpha beta ⊤) := by
  simp only [abMinLoop]
  rw [min_eq_right (le_top : f m alpha beta ≤ (⊤ : XInt))]
  split
  · exact hf m (List.mem_cons_self m ms) alpha beta
  · exact abMinLoop_pred Q f ms _ _ _ (hf m (List.mem_cons_self m ms) alpha beta)
      (fun m' hm' a c => hf m' (List.mem_cons_of_mem m hm') a c)

theorem reach_alphaBetaVal (R : Rules B M) :
    ∀ (d : Nat) (board : B) (alpha beta : XInt) (mx : Bool),
      ∃ b', Reach R board d b' ∧
        alphaBetaVal R d board alpha beta mx = xfin (evaluate_position R b') := by
  intro d
  induction d with
  | zero =>
    intro board alpha beta mx
    exact ⟨board, Reach.refl board 0, rfl⟩
  | succ d ih =>
    intro board alpha beta mx
    simp only [alphaBetaVal]
    by_cases hgo : R.is_game_over board = true
    · simp only [hgo, if_true]
      exact ⟨board, Reach.refl board (d + 1), rfl⟩
    · simp only [hgo, if_false, Bool.false_eq_true]
      by_cases hemp : (R.legal_moves board).isEmpty = true
      · simp only [hemp, if_true]
        exact ⟨board, Reach.refl board (d + 1), rfl⟩
      · simp only [hemp, if_false, Bool.false_eq_true]
        obtain ⟨m, ms, hlm⟩ : ∃ m ms, R.legal_moves board = m :: ms := by
          cases hl : R.legal_moves board with
          | nil => rw [hl] at hemp; simp at hemp
          | cons a l => exact ⟨a, l, rfl⟩
        have hchild : ∀ (flag : Bool), ∀ m' ∈ R.legal_moves board, ∀ a c,
            ∃ b', Reach R board (d + 1) b' ∧
              alphaBetaVal R d (R.push board m') a c flag
                = xfin (evaluate_position R b') := by
          intro flag m' hm' a c
          obtain ⟨b', hr, he⟩ := ih (R.push board m') a c flag
          exact ⟨b', Reach.step board d m' b' hm' hr, he⟩
        cases mx with
        | true =>
          simp only [if_true]
          rw [hlm]
          exact abMaxLoop_pred_bot
            (fun v => ∃ b', Reach R board (d + 1) b' ∧ v = xfin (evaluate_position R b'))
            _ m ms alpha beta
            (fun m' hm' a c => hchild false m' (hlm ▸ hm') a c)
        | false =>
          simp only [if_false, Bool.false_eq_true]
          rw [hlm]
          exact abMinLoop_pred_top
            (fun v => ∃ b', Reach R board (d + 1) b' ∧ v = xfin (evaluate_position R b'))
            _ m ms alpha beta
            (fun m' hm' a c => hchild true m' (hlm ▸ hm') a c)

/-- C10: `alpha_beta` never returns the infinite sentinels it initializes
its running best/worst with: for every board, depth and window, the score
it returns is the (finite, integer) value of `evaluate_position` on some
position reachable from the root within `depth` plies. -/
theorem C10_no_infinite_sentinel (R : Rules B M) (d : Nat) (board : B)
    (alpha beta : XInt) (mx : Bool) :
    ∃ b', Reach R board d b' ∧
      (alpha_beta R d board alpha beta mx).1 = xfin (evaluate_position R b') := by
  obtain ⟨b', hr, he⟩ := reach_alphaBetaVal R d board alpha beta mx
  refine ⟨b', hr, ?_⟩
  rw [alpha_beta_st]
  exact he

/-- C2: with the full window (alpha = -infinity, beta = +infinity),
`alpha_beta` returns exactly the score of an unpruned full minimax over
the same tree with the same evaluator at the leaves, for every board,
every depth and both polarities of the maximizing flag. -/
theorem C2_pruning_equivalence (R : Rules B M) (d : Nat) (board : B) (mx : Bool) :
    (alpha_beta R d board ⊥ ⊤ mx).1 = minimax R d board mx := by
  obtain ⟨b', _, he⟩ := reach_alphaBetaVal R d board ⊥ ⊤ mx
  have hab : (⊥ : XInt) < ⊤ := lt_trans (bot_lt_xfin 0) (xfin_lt_top 0)
  obtain ⟨_, _, h3⟩ := km_main R d board ⊥ ⊤ mx hab
  have h4 : (⊥ : XInt) < alphaBetaVal R d board ⊥ ⊤ mx := by
    rw [he]; exact bot_lt_xfin _
  have h5 : alphaBetaVal R d board ⊥ ⊤ mx < (⊤ : XInt) := by
    rw [he]; exact xfin_lt_top _
  rw [alpha_beta_st]
  exact h3 h4 h5

theorem abMaxLoopF_eq (fO : M → XInt → XInt → Option XInt) (fV : M → XInt → XInt → XInt)
    (hf : ∀ m a c, fO m a c = some (fV m a c)) :
    ∀ (ms : List M) (alpha beta best : XInt),
      abMaxLoopF fO ms alpha beta best = some (abMaxLoop fV ms alpha beta best) := by
  intro ms
  induction ms with
  | nil => intro alpha beta best; rfl
  | cons m ms ih =>
    intro alpha beta best
    simp only [abMaxLoopF, abMaxLoop, hf]
    split
    · rfl
    · exact ih _ _ _

theorem abMinLoopF_eq (fO : M → XInt → XInt → Option XInt) (fV : M → XInt → XInt → XInt)
    (hf : ∀ m a c, fO m a c = some (fV m a c)) :
    ∀ (ms : List M) (alpha beta best : XInt),
      abMinLoopF fO ms alpha beta best = some (abMinLoop fV ms alpha beta best) := by
  intro ms
  induction ms with
  | nil => intro alpha beta best; rfl
  | cons m ms ih =>
    intro alpha beta best
    simp only [abMinLoopF, abMinLoop, hf]
    split
    · rfl
    · exact ih _ _ _

theorem alphaBetaFuel_complete (R : Rules B M) :
    ∀ (fuel d : Nat), d < fuel → ∀ (board : B) (alpha beta : XInt) (mx : Bool),
      alphaBetaFuel R fuel d board alpha beta mx
        = some (alphaBetaVal R d board alpha beta mx) := by
  intro fuel
  induction fuel with
  | zero => intro d hd; exact absurd hd (Nat.not_lt_zero d)
  | succ fuel ih =>
    intro d hd board alpha beta mx
    cases d with
    | zero => rfl
    | succ d =>
      have hdf : d < fuel := Nat.lt_of_succ_lt_succ hd
      simp only [alphaBetaFuel, alphaBetaVal]
      by_cases hgo : R.is_game_over board = true
      · simp [hgo]
      · simp only [hgo, if_false, Bool.false_eq_true]
        by_cases hemp : (R.legal_moves board).isEmpty = true
        · simp [hemp]
        · simp only [hemp, if_false, Bool.false_eq_true]
          cases mx with
          | true =>
            simp only [if_true]
            exact abMaxLoopF_eq _ _ (fun m a c => ih d hdf (R.push board m) a c false) _ _ _ _
          | false =>
            simp only [if_false, Bool.false_eq_true]
            exact abMinLoopF_eq _ _ (fun m a c => ih d hdf (R.push board m) a c true) _ _ _ _

/-- C9: the recursion of `alpha_beta` is bounded by its depth parameter:
each recursive call decreases depth by exactly one and recursion stops at
depth 0 or a game-over position, so with any call-stack budget exceeding
`d` the fuel-instrumented search completes (never exhausts its fuel) and
returns the score of `alpha_beta`: the function never fails on a legal
input. -/
theorem C9_recursion_depth_bounded (R : Rules B M) (fuel d : Nat) (board : B)
    (alpha beta : XInt) (mx : Bool) (h : d < fuel) :
    alphaBetaFuel R fuel d board alpha beta mx
      = some ((alpha_beta R d board alpha beta mx).1) := by
  rw [alpha_beta_st]
  exact alphaBetaFuel_complete R fuel d h board alpha beta mx

theorem C9_witness :
    2 < 3 ∧ alphaBetaFuel toyRules 3 2 [] ⊥ ⊤ true
      = some ((alpha_beta toyRules 2 [] ⊥ ⊤ true).1) :=
  ⟨by decide, C9_recursion_depth_bounded toyRules 3 2 [] ⊥ ⊤ true (by decide)⟩
theorem selMax_spec :
    ∀ (l : List (M × XInt)) (bs : XInt) (bm : Option M),
      selMax l bs bm = postMax bs bm (firstMax l) := by
  intro l
  induction l with
  | nil => intro bs bm; rfl
  | cons x xs ih =>
    intro bs bm
    simp only [selMax, firstMax, ih]
    cases hfm : firstMax xs with
    | none => simp only [postMax, pmMax]
    | some y =>
      simp only [postMax, pmMax]
      by_cases hxy : x.2 < y.2
      · by_cases hb : bs < x.2
        · simp [hxy, hb, lt_trans hb hxy]
        · simp [hxy, hb]
      · by_cases hb : bs < x.2
        · simp [hxy, hb]
        · have hy : ¬ bs < y.2 := not_lt.mpr (le_trans (not_lt.mp hxy) (not_lt.mp hb))
          simp [hxy, hb, hy]

theorem selMin_spec :
    ∀ (l : List (M × XInt)) (bs : XInt) (bm : Option M),
      selMin l bs bm = postMin bs bm (firstMin l) := by
  intro l
  induction l with
  | nil => intro bs bm; rfl
  | cons x xs ih =>
    intro bs bm
    simp only [selMin, firstMin, ih]
    cases hfm : firstMin xs with
    | none => simp only [postMin, pmMin]
    | some y =>
      simp only [postMin, pmMin]
      by_cases hxy : y.2 < x.2
      · by_cases hb : x.2 < bs
        · simp [hxy, hb, lt_trans hxy hb]
        · simp [hxy, hb]
      · by_cases hb : x.2 < bs
        · simp [hxy, hb]
        · have hy : ¬ y.2 < bs := not_lt.mpr (le_trans (not_lt.mp hb) (not_lt.mp hxy))
          simp [hxy, hb, hy]

theorem pymax_spec :
    ∀ (xs : List (M × XInt)) (cur : M × XInt),
      pymax cur xs = pmMax cur (firstMax xs) := by
  intro xs
  induction xs with
  | nil => intro cur; rfl
  | cons x xs ih =>
    intro cur
    simp only [pymax, firstMax, ih]
    cases hfm : firstMax xs with
    | none => simp only [pmMax]
    | some y =>
      simp only [pmMax]
      by_cases hxy : x.2 < y.2
      · by_cases hb : cur.2 < x.2
        · simp [hxy, hb, lt_trans hb hxy]
        · simp [hxy, hb]
      · by_cases hb : cur.2 < x.2
        · simp [hxy, hb]
        · have hy : ¬ cur.2 < y.2 := not_lt.mpr (le_trans (not_lt.mp hxy) (not_lt.mp hb))
          simp [hxy, hb, hy]

theorem pymin_spec :
    ∀ (xs : List (M × XInt)) (cur : M × XInt),
      pymin cur xs = pmMin cur (firstMin xs) := by
  intro xs
  induction xs with
  | nil => intro cur; rfl
  | cons x xs ih =>
    intro cur
    simp only [pymin, firstMin, ih]
    cases hfm : firstMin xs with
    | none => simp only [pmMin]
    | some y =>
      simp only [pmMin]
      by_cases hxy : y.2 < x.2
      · by_cases hb : x.2 < cur.2
        · simp [hxy, hb, lt_trans hxy hb]
        · simp [hxy, hb]
      · by_cases hb : x.2 < cur.2
        · simp [hxy, hb]
        · have hy : ¬ y.2 < cur.2 := not_lt.mpr (le_trans (not_lt.mp hb) (not_lt.mp hxy))
          simp [hxy, hb, hy]

theorem firstMax_eq_pymax (x : M × XInt) (xs : List (M × XInt)) :
    firstMax (x :: xs) = some (pymax x xs) := by
  rw [pymax_spec, firstMax]

theorem firstMin_eq_pymin (x : M × XInt) (xs : List (M × XInt)) :
    firstMin (x :: xs) = some (pymin x xs) := by
  rw [pymin_spec, firstMin]

theorem firstMax_mem :
    ∀ (l : List (M × XInt)) (y : M × XInt), firstMax l = some y → y ∈ l := by
  intro l
  induction l with
  | nil => intro y h; cases h
  | cons x xs ih =>
    intro y h
    rw [firstMax] at h
    injection h with h
    cases hfm : firstMax xs with
    | none =>
      rw [hfm] at h
      simp only [pmMax] at h
      rw [← h]
      exact List.mem_cons_self x xs
    | some z =>
      rw [hfm] at h
      simp only [pmMax] at h
      by_cases hxz : x.2 < z.2
      · rw [if_pos hxz] at h
        rw [← h]
        exact List.mem_cons_of_mem x (ih z hfm)
      · rw [if_neg hxz] at h
        rw [← h]
        exact List.mem_cons_self x xs

theorem firstMin_mem :
    ∀ (l : List (M × XInt)) (y : M × XInt), firstMin l = some y → y ∈ l := by
  intro l
  induction l with
  | nil => intro y h; cases h
  | cons x xs ih =>
    intro y h
    rw [firstMin] at h
    injection h with h
    cases hfm : firstMin xs with
    | none =>
      rw [hfm] at h
      simp only [pmMin] at h
      rw [← h]
      exact List.mem_cons_self x xs
    | some z =>
      rw [hfm] at h
      simp only [pmMin] at h
      by_cases hxz : z.2 < x.2
      · rw [if_pos hxz] at h
        rw [← h]
        exact List.mem_cons_of_mem x (ih z hfm)
      · rw [if_neg hxz] at h
        rw [← h]
        exact List.mem_cons_self x xs

theorem scored_snd_fin (R : Rules B M) (board : B) (depth : Nat) (ms : List M) :
    ∀ x ∈ scoredList R board depth ms, ∃ n, x.2 = xfin n := by
  intro x hx
  rw [scoredList, List.mem_map] at hx
  obtain ⟨m, _, rfl⟩ := hx
  obtain ⟨b', _, he⟩ := reach_alphaBetaVal R (depth - 1) (R.push board m) ⊥ ⊤
    (R.turn (R.push board m) == false)
  refine ⟨evaluate_position R b', ?_⟩
  show (alpha_beta R (depth - 1) (R.push board m) ⊥ ⊤ (R.turn (R.push board m) == false)).1
    = xfin (evaluate_position R b')
  rw [alpha_beta_st]
  exact he

theorem fbmLoopUci_selW (R : Rules B M) (depth : Nat) (board : B)
    (ht : R.turn board = true) :
    ∀ (ms : List M) (i : Nat) (bs : XInt) (bm : Option M),
      fbmLoopUci R depth (fun _ => false) i board ms bs bm
        = (selMax (scoredList R board depth ms) bs bm, board) := by
  intro ms
  induction ms with
  | nil => intro i bs bm; rfl
  | cons m ms ih =>
    intro i bs bm
    simp only [scoredList, alpha_beta_st R] at ih ⊢
    simp only [fbmLoopUci, Bool.false_eq_true, if_false, alpha_beta_st R, R.pop_push, ht,
      if_true, List.map_cons, selMax]
    split
    · exact ih (i + 1) _ _
    · exact ih (i + 1) _ _

theorem fbmLoopUci_selB (R : Rules B M) (depth : Nat) (board : B)
    (ht : R.turn board = false) :
    ∀ (ms : List M) (i : Nat) (bs : XInt) (bm : Option M),
      fbmLoopUci R depth (fun _ => false) i board ms bs bm
        = (selMin (scoredList R board depth ms) bs bm, board) := by
  intro ms
  induction ms with
  | nil => intro i bs bm; rfl
  | cons m ms ih =>
    intro i bs bm
    simp only [scoredList, alpha_beta_st R] at ih ⊢
    simp only [fbmLoopUci, Bool.false_eq_true, if_false, alpha_beta_st R, R.pop_push, ht,
      List.map_cons, selMin]
    split
    · exact ih (i + 1) _ _
    · exact ih (i + 1) _ _

theorem fbmLoopV3_collect (R : Rules B M) (depth : Nat) :
    ∀ (ms : List M) (i : Nat) (sb : B) (acc : List (M × XInt)),
      fbmLoopV3 R depth (fun _ => false) i sb ms acc
        = (acc ++ scoredList R sb depth ms, sb) := by
  intro ms
  induction ms with
  | nil => intro i sb acc; simp [fbmLoopV3, scoredList]
  | cons m ms ih =>
    intro i sb acc
    simp only [scoredList, alpha_beta_st R] at ih ⊢
    simp only [fbmLoopV3, Bool.false_eq_true, if_false, alpha_beta_st R, R.pop_push,
      List.map_cons]
    rw [ih]
    simp

theorem fbmLoopUci_provenance (R : Rules B M) (depth : Nat) (tu : Nat → Bool) :
    ∀ (ms : List M) (i : Nat) (board : B) (bs : XInt) (bm : Option M),
      (fbmLoopUci R depth tu i board ms bs bm).1 = bm ∨
        ∃ m ∈ ms, (fbmLoopUci R depth tu i board ms bs bm).1 = some m := by
  intro ms
  induction ms with
  | nil => intro i board bs bm; left; rfl
  | cons m ms ih =>
    intro i board bs bm
    simp only [fbmLoopUci]
    split
    · left; rfl
    · have hstep : ∀ (bs' : XInt) (bm' : Option M),
          (bm' = bm ∨ bm' = some m) →
          (fbmLoopUci R depth tu (i + 1) (R.pop (alpha_beta R (depth - 1)
              (R.push board m) ⊥ ⊤ (R.turn (R.push board m) == false)).2) ms bs' bm').1 = bm ∨
            ∃ m' ∈ m :: ms,
              (fbmLoopUci R depth tu (i + 1) (R.pop (alpha_beta R (depth - 1)
                (R.push board m) ⊥ ⊤ (R.turn (R.push board m) == false)).2) ms bs' bm').1
                  = some m' := by
        intro bs' bm' hbm
        rcases ih (i + 1) _ bs' bm' with h | ⟨m', hm', h⟩
        · rcases hbm with rfl | rfl
          · left; exact h
          · right; exact ⟨m, List.mem_cons_self m ms, h⟩
        · right; exact ⟨m', List.mem_cons_of_mem m hm', h⟩
      split
      · split
        · exact hstep _ _ (Or.inr rfl)
        · exact hstep _ _ (Or.inl rfl)
      · split
        · exact hstep _ _ (Or.inr rfl)
        · exact hstep _ _ (Or.inl rfl)

/-- C7: among root moves with equal scores the first-seen move is kept, in
both root selectors: with the time budget never expiring, the uci
`find_best_move` and the v3 `find_best_move` both return exactly the first
move (in enumeration order) attaining the strictly greatest score when the
root side to move is White, and the first move attaining the strictly least
score when it is Black — a later move with a merely equal score never
replaces an earlier one. -/
theorem C7_first_seen_tiebreak [DecidableEq M] (R : Rules B M) (board : B) (depth : Nat) :
    (find_best_move_uci R (fun _ => false) board depth).1
      = (if R.turn board
          then firstMax (scoredList R board depth (R.legal_moves board))
          else firstMin (scoredList R board depth (R.legal_moves board))).map Prod.fst
    ∧ find_best_move_v3 R (fun _ => false) board depth
      = (if R.turn board
          then firstMax (scoredList R board depth (R.legal_moves board))
          else firstMin (scoredList R board depth (R.legal_moves board))).map Prod.fst := by
  constructor
  · simp only [find_best_move_uci]
    by_cases hemp : (R.legal_moves board).isEmpty = true
    · rw [if_pos hemp]
      rw [List.isEmpty_iff] at hemp
      simp [hemp, scoredList, firstMax, firstMin]
    · rw [if_neg hemp]
      by_cases ht : R.turn board = true
      · rw [if_pos ht, if_pos ht, fbmLoopUci_selW R depth board ht, selMax_spec]
        cases hfm : firstMax (scoredList R board depth (R.legal_moves board)) with
        | none => rfl
        | some y =>
          obtain ⟨n, hn⟩ := scored_snd_fin R board depth (R.legal_moves board) y
            (firstMax_mem _ y hfm)
          simp only [postMax, hn, Option.map_some]
          rw [if_pos (bot_lt_xfin n)]
          rfl
      · have ht' : R.turn board = false := by
          cases h : R.turn board
          · rfl
          · exact absurd h ht
        rw [if_neg ht, if_neg ht, fbmLoopUci_selB R depth board ht', selMin_spec]
        cases hfm : firstMin (scoredList R board depth (R.legal_moves board)) with
        | none => rfl
        | some y =>
          obtain ⟨n, hn⟩ := scored_snd_fin R board depth (R.legal_moves board) y
            (firstMin_mem _ y hfm)
          simp only [postMin, hn, Option.map_some]
          rw [if_pos (xfin_lt_top n)]
          rfl
  · simp only [find_best_move_v3, R.copy_eq]
    by_cases hemp : (R.legal_moves board).isEmpty = true
    · rw [if_pos hemp]
      rw [List.isEmpty_iff] at hemp
      simp [hemp, scoredList, firstMax, firstMin]
    · rw [if_neg hemp]
      rw [fbmLoopV3_collect R depth (R.legal_moves board) 0 board []]
      simp only [List.nil_append]
      split
      · rename_i heq
        rw [scoredList, List.map_eq_nil_iff] at heq
        rw [heq] at hemp
        simp at hemp
      · rename_i s rest heq
        have hfmx : firstMax (scoredList R board depth (R.legal_moves board))
            = some (pymax s rest) := by
          rw [heq, firstMax_eq_pymax]
        have hfmn : firstMin (scoredList R board depth (R.legal_moves board))
            = some (pymin s rest) := by
          rw [heq, firstMin_eq_pymin]
        by_cases ht : R.turn board = true
        · rw [if_pos ht, if_pos ht, hfmx]
          have hmem : (pymax s rest).1 ∈ R.legal_moves board := by
            have h1 := firstMax_mem _ _ hfmx
            rw [scoredList, List.mem_map] at h1
            obtain ⟨m', hm', heq2⟩ := h1
            rw [← heq2]
            exact hm'
          rw [if_pos hmem]
          rfl
        · rw [if_neg ht, if_neg ht, hfmn]
          have hmem : (pymin s rest).1 ∈ R.legal_moves board := by
            have h1 := firstMin_mem _ _ hfmn
            rw [scoredList, List.mem_map] at h1
            obtain ⟨m', hm', heq2⟩ := h1
            rw [← heq2]
            exact hm'
          rw [if_pos hmem]
          rfl

/-- C5: whenever either root selector returns a move (for any board, depth
and time-oracle outcome), that move is a member of the caller-visible
board's current legal-move set at the time of return: the uci variant only
tracks moves drawn from the enumeration it made on the (restored) caller
board, and the v3 variant re-validates the chosen move against the live
board, falling back to the first legal move on mismatch. -/
theorem C5_returned_move_legal [DecidableEq M] (R : Rules B M) (tu : Nat → Bool)
    (board : B) (depth : Nat) (m : M) :
    ((find_best_move_uci R tu board depth).1 = some m → m ∈ R.legal_moves board) ∧
    (find_best_move_v3 R tu board depth = some m → m ∈ R.legal_moves board) := by
  constructor
  · intro h
    simp only [find_best_move_uci] at h
    by_cases hemp : (R.legal_moves board).isEmpty = true
    · rw [if_pos hemp] at h
      cases h
    · rw [if_neg hemp] at h
      rcases fbmLoopUci_provenance R depth tu (R.legal_moves board) 0 board
          (if R.turn board then ⊥ else ⊤) none with h' | ⟨m', hm', h'⟩
      · rw [h'] at h
        cases h
      · rw [h'] at h
        injection h with h
        rw [← h]
        exact hm'
  · intro h
    simp only [find_best_move_v3, R.copy_eq] at h
    by_cases hemp : (R.legal_moves board).isEmpty = true
    · rw [if_pos hemp] at h
      cases h
    · rw [if_neg hemp] at h
      split at h
      · cases hl : R.legal_moves board with
        | nil => rw [hl] at hemp; simp at hemp
        | cons a l =>
          rw [hl] at h
          simp only [List.head?_cons] at h
          injection h with h
          rw [← h]
          exact List.mem_cons_self a l
      · split at h
        · split at h
          · rename_i hin
            injection h with h
            rw [← h]
            exact hin
          · cases hl : R.legal_moves board with
            | nil => rw [hl] at hemp; simp at hemp
            | cons a l =>
              rw [hl] at h
              simp only [List.head?_cons] at h
              injection h with h
              rw [← h]
              exact List.mem_cons_self a l
        · split at h
          · rename_i hin
            injection h with h
            rw [← h]
            exact hin
          · cases hl : R.legal_moves board with
            | nil => rw [hl] at hemp; simp at hemp
            | cons a l =>
              rw [hl] at h
              simp only [List.head?_cons] at h
              injection h with h
              rw [← h]
              exact List.mem_cons_self a l

theorem C5_witness : (0 : Nat) ∈ toyRules.legal_moves ([] : List Nat) :=
  (C5_returned_move_legal toyRules (fun _ => false) [] 2 0).2 (by decide)

/-- C4 (amended): when the time budget expires before any root move is
evaluated, the v3 `find_best_move` falls back to the first enumerated legal
move, but the uci `find_best_move` has no such fallback and returns the
"no move" outcome even though legal moves exist. -/
theorem C4_timeout_fallback [DecidableEq M] (R : Rules B M) (board : B) (depth : Nat)
    (hl : (R.legal_moves board).isEmpty = false) :
    find_best_move_v3 R (fun _ => true) board depth = (R.legal_moves board).head? ∧
    (find_best_move_uci R (fun _ => true) board depth).1 = none := by
  obtain ⟨m, ms, hlm⟩ : ∃ m ms, R.legal_moves board = m :: ms := by
    cases hc : R.legal_moves board with
    | nil => rw [hc] at hl; simp at hl
    | cons a l => exact ⟨a, l, rfl⟩
  constructor
  · simp only [find_best_move_v3, R.copy_eq, hlm]
    rw [if_neg (by simp : ¬((m :: ms).isEmpty = true))]
    simp [fbmLoopV3]
  · simp only [find_best_move_uci, hlm]
    rw [if_neg (by simp : ¬((m :: ms).isEmpty = true))]
    simp [fbmLoopUci]

theorem C4_counterexample :
    (toyRules.legal_moves ([] : List Nat)).isEmpty = false ∧
    (find_best_move_uci toyRules (fun _ => true) [] 3).1 = none := by
  exact ⟨rfl, rfl⟩

theorem C4_witness :
    (toyRules.legal_moves ([] : List Nat)).isEmpty = false ∧
    (find_best_move_v3 toyRules (fun _ => true) [] 3
        = (toyRules.legal_moves ([] : List Nat)).head? ∧
      (find_best_move_uci toyRules (fun _ => true) [] 3).1 = none) :=
  ⟨rfl, C4_timeout_fallback toyRules [] 3 rfl⟩

/-- C1 (amended): on a checkmated position the evaluator returns a
White-absolute sentinel, not a side-to-move-relative one: exactly -99999
when the side to move is White, and exactly +99999 when the side to move
is Black. -/
theorem C1_checkmate_sentinel (R : Rules B M) (board : B)
    (h : R.is_checkmate board = true) :
    evaluate_position R board = if R.turn board then -99999 else 99999 := by
  rw [evaluate_position, if_pos h]

theorem C1_counterexample :
    (snapRules scholarSnap).is_checkmate () = true ∧
    (snapRules scholarSnap).turn () = false ∧
    evaluate_position (snapRules scholarSnap) () ≠ -99999 := by
  refine ⟨rfl, rfl, ?_⟩
  decide

theorem C1_witness :
    (snapRules foolSnap).is_checkmate () = true ∧
    evaluate_position (snapRules foolSnap) ()
      = (if (snapRules foolSnap).turn () then -99999 else 99999) :=
  ⟨rfl, C1_checkmate_sentinel (snapRules foolSnap) () rfl⟩

theorem xor56_invol (sq : Nat) : sq ^^^ 56 ^^^ 56 = sq := by
  rw [Nat.xor_assoc, Nat.xor_self, Nat.xor_zero]

theorem evalSquare_eq (pz : Nat → Option Piece) (acc : Int × Int) (sq : Nat) :
    evalSquare pz acc sq = (acc.1 + sqMat pz sq, acc.2 + sqPst pz sq) := by
  simp only [evalSquare, sqMat, sqPst]
  cases pz sq with
  | none => simp
  | some pc =>
    obtain ⟨c, t⟩ := pc
    cases c
    · simp [sub_eq_add_neg]
    · simp

theorem foldl_evalSquare (pz : Nat → Option Piece) :
    ∀ (l : List Nat) (a b : Int),
      l.foldl (evalSquare pz) (a, b)
        = (a + (l.map (sqMat pz)).sum, b + (l.map (sqPst pz)).sum) := by
  intro l
  induction l with
  | nil => intro a b; simp
  | cons x l ih =>
    intro a b
    simp only [List.foldl_cons, List.map_cons, List.sum_cons, evalSquare_eq]
    rw [ih]
    simp [add_assoc]

theorem range64_xor_perm :
    ((List.range 64).map (fun sq => sq ^^^ 56)).Perm (List.range 64) := by
  decide

theorem sum_map_neg (l : List Nat) (f : Nat → Int) :
    (l.map (fun x => -f x)).sum = -((l.map f).sum) := by
  induction l with
  | nil => simp
  | cons x l ih => simp [ih, neg_add, add_comm]

theorem sqMat_mirror (pz pz' : Nat → Option Piece)
    (hp : ∀ sq, sq < 64 → pz' sq = (pz (sq ^^^ 56)).map flipPiece)
    (sq : Nat) (hsq : sq < 64) :
    sqMat pz' sq = -(sqMat pz (sq ^^^ 56)) := by
  simp only [sqMat, hp sq hsq]
  cases pz (sq ^^^ 56) with
  | none => simp
  | some pc =>
    obtain ⟨c, t⟩ := pc
    cases c
    · simp [flipPiece]
    · simp [flipPiece]

theorem sqPst_mirror (pz pz' : Nat → Option Piece)
    (hp : ∀ sq, sq < 64 → pz' sq = (pz (sq ^^^ 56)).map flipPiece)
    (sq : Nat) (hsq : sq < 64) :
    sqPst pz' sq = -(sqPst pz (sq ^^^ 56)) := by
  simp only [sqPst, hp sq hsq]
  cases pz (sq ^^^ 56) with
  | none => simp
  | some pc =>
    obtain ⟨c, t⟩ := pc
    cases c
    · simp [flipPiece, xor56_invol]
    · simp [flipPiece]

theorem eval_total (R : Rules B M) (board : B)
    (h1 : R.is_checkmate board = false)
    (h2 : R.is_stalemate board = false)
    (h3 : R.is_insufficient_material board = false) :
    evaluate_position R board
      = (if R.turn board
          then ((List.range 64).map (sqMat (R.piece_at board))).sum
            + ((List.range 64).map (sqPst (R.piece_at board))).sum
          else -(((List.range 64).map (sqMat (R.piece_at board))).sum
            + ((List.range 64).map (sqPst (R.piece_at board))).sum)) := by
  simp only [evaluate_position, h1, h2, h3, Bool.false_eq_true, if_false, Bool.or_self,
    foldl_evalSquare, zero_add]

/-- C6 (amended): relabeling all pieces' colors, mirroring the board
vertically and flipping the side to move leaves the score returned by
`evaluate_position` unchanged on non-terminal positions (the White-centric
material-plus-PST total is negated by the transformation, and the final
side-to-move sign flip cancels that negation — the returned score is
invariant, not negated). -/
theorem C6_mirror_invariance {B1 M1 B2 M2 : Type} (R1 : Rules B1 M1) (b1 : B1)
    (R2 : Rules B2 M2) (b2 : B2)
    (hc1 : R1.is_checkmate b1 = false) (hs1 : R1.is_stalemate b1 = false)
    (hi1 : R1.is_insufficient_material b1 = false)
    (hc2 : R2.is_checkmate b2 = false) (hs2 : R2.is_stalemate b2 = false)
    (hi2 : R2.is_insufficient_material b2 = false)
    (ht : R2.turn b2 = !(R1.turn b1))
    (hp : ∀ sq, sq < 64 → R2.piece_at b2 sq = (R1.piece_at b1 (sq ^^^ 56)).map flipPiece) :
    evaluate_position R2 b2 = evaluate_position R1 b1 := by
  rw [eval_total R1 b1 hc1 hs1 hi1, eval_total R2 b2 hc2 hs2 hi2]
  have hperm : ∀ f : Nat → Int,
      ((List.range 64).map (fun sq => f (sq ^^^ 56))).sum = ((List.range 64).map f).sum := by
    intro f
    have hmm : (List.range 64).map (fun sq => f (sq ^^^ 56))
        = ((List.range 64).map (fun sq => sq ^^^ 56)).map f := by
      rw [List.map_map]
      rfl
    rw [hmm]
    exact List.Perm.sum_eq (List.Perm.map f range64_xor_perm)
  have hmat : ((List.range 64).map (sqMat (R2.piece_at b2))).sum
      = -(((List.range 64).map (sqMat (R1.piece_at b1))).sum) := by
    have hcong : (List.range 64).map (sqMat (R2.piece_at b2))
        = (List.range 64).map (fun sq => -(sqMat (R1.piece_at b1) (sq ^^^ 56))) :=
      List.map_congr_left (fun sq hsq => sqMat_mirror _ _ hp sq (List.mem_range.mp hsq))
    rw [hcong, sum_map_neg, hperm]
  have hpst : ((List.range 64).map (sqPst (R2.piece_at b2))).sum
      = -(((List.range 64).map (sqPst (R1.piece_at b1))).sum) := by
    have hcong : (List.range 64).map (sqPst (R2.piece_at b2))
        = (List.range 64).map (fun sq => -(sqPst (R1.piece_at b1) (sq ^^^ 56))) :=
      List.map_congr_left (fun sq hsq => sqPst_mirror _ _ hp sq (List.mem_range.mp hsq))
    rw [hcong, sum_map_neg, hperm]
  rw [hmat, hpst, ht]
  cases h : R1.turn b1 with
  | false => simp [neg_add, add_comm]
  | true => simp [neg_add, add_comm]

theorem C6_counterexample :
    (snapRules pawnSnap).is_checkmate () = false ∧
    (snapRules pawnSnap).is_stalemate () = false ∧
    (snapRules pawnSnap).is_insufficient_material () = false ∧
    evaluate_position (snapRules (mirrorSnap pawnSnap)) ()
      ≠ -(evaluate_position (snapRules pawnSnap) ()) := by
  refine ⟨rfl, rfl, rfl, ?_⟩
  decide

theorem C6_witness :
    evaluate_position (snapRules (mirrorSnap pawnSnap)) ()
      = evaluate_position (snapRules pawnSnap) () :=
  C6_mirror_invariance (snapRules pawnSnap) () (snapRules (mirrorSnap pawnSnap)) ()
    rfl rfl rfl rfl rfl rfl rfl (fun _ _ => rfl)

/-- C8 (code bug): for a `position fen <fen>` line with NO trailing moves
token, the slice `parts[2 : parts.index("moves") if "moves" in parts
else -1]` in `uci_loop` uses -1 — not the end of the list — as the stop
index, so the last whitespace-separated FEN field (the fullmove number) is
dropped: the board is not set from the complete FEN exactly as supplied. -/
theorem C8_fen_field_dropped :
    fenOfParts c8Parts = "rnbqkbnr/pppppppp/8/8/8/8/PPPPPPPP/RNBQKBNR w KQkq - 0" ∧
    fenOfParts c8Parts ≠ String.intercalate " " (c8Parts.drop 2) := by
  refine ⟨by decide, by decide⟩
